import Mathlib

/-!
Verification of the torn-oc-history report generator.

This file shallowly embeds the core data model and algorithms of the Go
program: the statistics reducer (the nested-map fold in `runReports` and in
`main`), the paginated crime-history fetcher (`fetchAllCrimes`), the report
renderer (`generateReportLines`), the pass / scheduler control flow
(`runReports` plus the ticker loop in `main`), and the tabular-sink emission
(ClearRange / UpdateRange calls).  Go maps are embedded as association lists
whose operations (`lookupA` / `setA`) reproduce Go map lookup and store; Go
map iteration order is unspecified, so wherever the source iterates a map the
embedding takes the iteration order as an explicit list and theorems quantify
over it.  Machine integers (`int`, `int64`) are embedded as `Int`; the program
performs no arithmetic that can overflow.  External effects (HTTP, sheets)
are embedded as explicit inputs (`Except` results, page sources) and ghost
traces of attempted operations.
-/

set_option maxRecDepth 100000

namespace TornOC

/-- Go struct `Member.LastAction` (anonymous struct in `Member`). -/
structure LastActionInfo where
  Status : String
  Timestamp : Int
  Relative : String
deriving DecidableEq, Repr, Inhabited

/-- Go struct `Member`. -/
structure Member where
  ID : Int
  Name : String
  IsInOC : Bool
  LastAction : LastActionInfo
deriving DecidableEq, Repr, Inhabited

/-- Go struct `SlotUser`. -/
structure SlotUser where
  ID : Int
  Outcome : String
deriving DecidableEq, Repr, Inhabited

/-- Go struct `Slot`. -/
structure Slot where
  Position : String
  User : SlotUser
  CheckpointPassRate : Int
deriving DecidableEq, Repr, Inhabited

/-- Go struct `Crime`. -/
structure Crime where
  ID : Int
  Name : String
  Difficulty : Int
  ExecutedAt : Int
  Slots : List Slot
deriving DecidableEq, Repr, Inhabited

/-- Go struct `RateInfo`: most recent checkpoint pass rate for a member at a
given difficulty/position. -/
structure RateInfo where
  Rate : Int
  ExecutedAt : Int
deriving DecidableEq, Repr, Inhabited

/-- Association-list lookup, embedding Go map read `m[k]` (with its `ok`
flag as `Option`). -/
def lookupA {κ β : Type} [DecidableEq κ] : List (κ × β) → κ → Option β
  | [], _ => none
  | e :: rest, k => if e.1 = k then some e.2 else lookupA rest k

/-- Association-list store, embedding Go map write `m[k] = v`. -/
def setA {κ β : Type} [DecidableEq κ] : List (κ × β) → κ → β → List (κ × β)
  | [], k, v => [(k, v)]
  | e :: rest, k, v => if e.1 = k then (k, v) :: rest else e :: setA rest k v

/-- Innermost level of the Go type `MemberStats`: position label → RateInfo. -/
abbrev PosMap : Type := List (String × RateInfo)

/-- Middle level of `MemberStats`: difficulty → position map. -/
abbrev DiffMap : Type := List (Int × PosMap)

/-- Go type `MemberStats`: memberID → difficulty → position → RateInfo. -/
abbrev MemberStats : Type := List (Int × DiffMap)

/-- Innermost part of the reduction loop body in `runReports` (and `main`):
ensure the position entry exists (zero `RateInfo{}` if absent), then
overwrite it when the owning crime's `executed_at` is strictly greater. -/
def applyPos (exec rate : Int) (pos : String) (m2 : PosMap) : PosMap :=
  let m2e : PosMap := if (lookupA m2 pos).isSome then m2 else setA m2 pos ⟨0, 0⟩
  let st : RateInfo := (lookupA m2e pos).getD ⟨0, 0⟩
  if exec > st.ExecutedAt then setA m2e pos ⟨rate, exec⟩ else m2e

/-- Middle part of the loop body: ensure the difficulty level exists and
update its position map (Go mutates the shared inner map in place; the
functional embedding stores the transformed inner map back). -/
def applyDiff (exec rate : Int) (d : Int) (pos : String) (m1 : DiffMap) : DiffMap :=
  let m1e : DiffMap := if (lookupA m1 d).isSome then m1 else setA m1 d ([] : PosMap)
  setA m1e d (applyPos exec rate pos ((lookupA m1e d).getD ([] : PosMap)))

/-- One iteration of the inner loop `for _, slot := range crime.Slots` of the
stats reduction in `runReports` (src/unnamed/part_002) / `main` (src/main.go). -/
def applySlot (c : Crime) (s : MemberStats) (slot : Slot) : MemberStats :=
  let uid := slot.User.ID
  let se : MemberStats := if (lookupA s uid).isSome then s else setA s uid ([] : DiffMap)
  setA se uid
    (applyDiff c.ExecutedAt slot.CheckpointPassRate c.Difficulty slot.Position
      ((lookupA se uid).getD ([] : DiffMap)))

/-- One iteration of the outer loop `for _, crime := range crimes`. -/
def applyCrime (s : MemberStats) (c : Crime) : MemberStats :=
  c.Slots.foldl (applySlot c) s

/-- The full stats reduction of `runReports` (src/unnamed/part_002, no
membership filter): fold the whole crime list into the nested index. -/
def buildStats (crimes : List Crime) : MemberStats :=
  crimes.foldl applyCrime ([] : MemberStats)

/-- The filtered stats reduction of `main` (src/main.go): slots whose
assigned member id is not a key of `selected` are skipped. -/
def buildStatsFiltered (ids : List Int) (crimes : List Crime) : MemberStats :=
  crimes.foldl
    (fun s c =>
      c.Slots.foldl (fun a slot => if slot.User.ID ∈ ids then applySlot c a slot else a) s)
    ([] : MemberStats)

/-- Triple lookup `stats[uid][d][p]` (with presence). -/
def statsGet (s : MemberStats) (uid d : Int) (p : String) : Option RateInfo :=
  (lookupA s uid).bind fun m1 => (lookupA m1 d).bind fun m2 => lookupA m2 p

/-- The (member, difficulty, position) key triple of the index. -/
abbrev Key : Type := Int × Int × String

/-- `statsGet` at a packed key triple. -/
def statsGetK (s : MemberStats) (k : Key) : Option RateInfo :=
  statsGet s k.1 k.2.1 k.2.2

/-- The key triple a slot of a crime writes to. -/
def keyOf (c : Crime) (slot : Slot) : Key :=
  (slot.User.ID, c.Difficulty, slot.Position)

/-- All slots of a crime assigned to a given key triple. -/
def slotsAt (k : Key) (c : Crime) : List Slot :=
  c.Slots.filter fun slot => decide (keyOf c slot = k)

/-- Whether a crime record contributes at least one slot for the triple. -/
def contributesB (k : Key) (c : Crime) : Bool :=
  (c.Slots.find? fun slot => decide (keyOf c slot = k)).isSome

/-- The first (hence decisive, all slots of one crime sharing `executed_at`)
contribution of a crime at a key: the (executedAt, passRate) pair of its
first matching slot. -/
def crimeHead (k : Key) (c : Crime) : Option (Int × Int) :=
  (c.Slots.find? fun slot => decide (keyOf c slot = k)).map
    fun slot => (c.ExecutedAt, slot.CheckpointPassRate)

/-- Per-key view of the crime list: one (executedAt, passRate) pair per
contributing record, in record order. -/
def rc (k : Key) (l : List Crime) : List (Int × Int) :=
  l.filterMap (crimeHead k)

/-- `executed_at` values of the records contributing a slot for the triple. -/
def contribExecs (k : Key) (l : List Crime) : List Int :=
  (l.filter (contributesB k)).map Crime.ExecutedAt

/-- The recency rule applied to one contribution: overwrite exactly when the
new `executed_at` is strictly greater than the stored one. -/
def step (acc : RateInfo) (p : Int × Int) : RateInfo :=
  if p.1 > acc.ExecutedAt then ⟨p.2, p.1⟩ else acc

/-- Per-key reduction: threading `step` through the contributions, starting
absent (first contribution materialises the zero entry first). -/
def reduceFrom (o : Option RateInfo) : List (Int × Int) → Option RateInfo
  | [] => o
  | p :: rest => reduceFrom (some (step (o.getD ⟨0, 0⟩) p)) rest

/-- Maximum of a list of `Int`s (0 for the empty list; only used nonempty). -/
def maxInt : List Int → Int
  | [] => 0
  | e :: es => es.foldl max e

/-- ASCII lower case of a codepoint, the fragment of Go `strings.ToLower`
exercised by member names (codepoint order below coincides with Go's UTF-8
byte order). -/
def lowerNat (n : Nat) : Nat := if 65 ≤ n ∧ n ≤ 90 then n + 32 else n

/-- Case-folded comparison key of a display name. -/
def lowerKey (s : String) : List Nat := s.data.map fun c => lowerNat c.toNat

/-- Lexicographic `≤` on codepoint lists (Go string comparison order). -/
def lexLe : List Nat → List Nat → Bool
  | [], _ => true
  | _ :: _, [] => false
  | a :: as, b :: bs => if a < b then true else if a = b then lexLe as bs else false

/-- The comparison of `generateReportLines`'s `sort.Slice` closure:
`strings.ToLower(name_i) < strings.ToLower(name_j)`, as its reflexive
closure. -/
def nameLe (a b : String) : Bool := lexLe (lowerKey a) (lowerKey b)

/-- `sort.Strings` order on position labels. -/
def strLe (a b : String) : Bool :=
  lexLe (a.data.map Char.toNat) (b.data.map Char.toNat)

/-- `sort.Ints` order on difficulties. -/
def intLe (a b : Int) : Bool := decide (a ≤ b)

/-- Insert into a sorted list, after any `le`-equal elements (stable). -/
def insertBy {α : Type} (le : α → α → Bool) (a : α) : List α → List α
  | [] => [a]
  | b :: bs => if le a b then a :: b :: bs else b :: insertBy le a bs

/-- Sorting as guaranteed by Go's `sort.Slice`/`sort.Ints`/`sort.Strings`:
the output is ordered by `le`.  Go fixes nothing beyond sortedness (its
`sort.Slice` is unstable, and the input order is map iteration order); the
embedding uses a deterministic stable sort of the explicit input list as one
admissible outcome. -/
def sortBy {α : Type} (le : α → α → Bool) : List α → List α
  | [] => []
  | a :: as => insertBy le a (sortBy le as)

/-- The `memberEntry{ID, Name}` records collected from the `selected` map
(`sel` is the map with an explicit iteration order). -/
def entriesOf (sel : List (Int × Member)) : List (Int × String) :=
  sel.map fun e => (e.1, e.2.Name)

/-- `sort.Slice` comparison on entries. -/
def entryLe (a b : Int × String) : Bool := nameLe a.2 b.2

/-- The sorted member entries of `generateReportLines`. -/
def sortedEntries (sel : List (Int × Member)) : List (Int × String) :=
  sortBy entryLe (entriesOf sel)

/-- Go `fmt` `%-15s`: left-justify in a 15-wide field. -/
def padRight (s : String) (w : Nat) : String :=
  s ++ String.mk (List.replicate (w - s.length) ' ')

/-- Go `fmt` `%3d` on the already-rendered number. -/
def padLeft (s : String) (w : Nat) : String :=
  String.mk (List.replicate (w - s.length) ' ') ++ s

/-- One position line of the report: `    %-15s %s` with a dash when the
stored rate is 0, else `    %-15s %3d%% (executed_at %s)` (the timestamp
rendering `time.Unix(..).Format(time.RFC3339)` is an external collaborator,
embedded as the parameter `fmtT`). -/
def posLine (fmtT : Int → String) (p : String) (st : RateInfo) : String :=
  if st.Rate = 0 then "    " ++ padRight p 15 ++ " " ++ "-"
  else
    "    " ++ padRight p 15 ++ " " ++ padLeft (toString st.Rate) 3 ++ "% (executed_at "
      ++ fmtT st.ExecutedAt ++ ")"

/-- The member summary line `Member: %s (%d) - Last seen: %s (%s)`. -/
def memberLine (m : Member) : String :=
  "Member: " ++ m.Name ++ " (" ++ toString m.ID ++ ") - Last seen: "
    ++ m.LastAction.Status ++ " (" ++ m.LastAction.Relative ++ ")"

/-- The position lines of one difficulty, positions sorted by `sort.Strings`. -/
def diffBlock (fmtT : Int → String) (pm : PosMap) : List String :=
  (sortBy strLe (pm.map Prod.fst)).map fun p =>
    posLine fmtT p ((lookupA pm p).getD ⟨0, 0⟩)

/-- The lines of one member block of `generateReportLines`: the
unconditional blank line, the summary line, then either the no-history line
or the difficulty sections sorted by `sort.Ints`. -/
def memberBlock (fmtT : Int → String) (m : Member) (sub : Option DiffMap) : List String :=
  "" :: memberLine m ::
    (match sub with
     | none => ["  No historical OC participation recorded."]
     | some dm =>
       (sortBy intLe (dm.map Prod.fst)).flatMap fun d =>
         ("  Difficulty " ++ toString d ++ ":") :: diffBlock fmtT ((lookupA dm d).getD []))

/-- `generateReportLines` (src/unnamed/part_002): header stamped with the
wall clock (`now`), then the member blocks in sorted order; the member is
re-read from the `selected` map at the entry's id, exactly as the source
does. -/
def generateReportLines (now : String) (fmtT : Int → String) (sel : List (Int × Member))
    (stats : MemberStats) : List String :=
  ("Report generated at: " ++ now) ::
    (sortedEntries sel).flatMap fun e =>
      memberBlock fmtT ((lookupA sel e.1).getD default) (lookupA stats e.1)

/-- `buildSheetRows`: each report line becomes a single-cell row. -/
def buildSheetRows (lines : List String) : List (List String) :=
  lines.map fun l => [l]

/-- The fixed page size of `fetchAllCrimes`. -/
def pageSize : Nat := 100

/-- The loop of `fetchAllCrimes`, instrumented with the list of requested
offsets; `source off` is the page the remote returns at offset `off`; `fuel`
bounds the unboundedly-looping Go `for` (the theorems are fuel-independent
above the number of pages actually fetched). -/
def fetchAllCrimesAux (source : Nat → List Crime) :
    Nat → Nat → List Crime → List Nat → Option (List Crime × List Nat)
  | 0, _, _, _ => none
  | fuel + 1, offset, acc, reqs =>
    let page := source offset
    let acc2 := acc ++ page
    let reqs2 := reqs ++ [offset]
    if page.length < pageSize then some (acc2, reqs2)
    else fetchAllCrimesAux source fuel (offset + pageSize) acc2 reqs2

/-- `fetchAllCrimes` (src/unnamed/part_002 and src/main.go): paginate from
offset 0 in steps of the requested page size, stopping at the first short
page.  Returns the accumulated records and the requested offsets. -/
def fetchAllCrimes (source : Nat → List Crime) (fuel : Nat) :
    Option (List Crime × List Nat) :=
  fetchAllCrimesAux source fuel 0 [] []

/-- The three report modes of `runReports` (default / `--all` / `--both`). -/
inductive Mode where
  | all
  | noc
  | both
deriving DecidableEq, Repr

/-- The external inputs one pass consumes: the roster fetch result, the
crime-history fetch result, and the wall clock. -/
structure PassInput where
  membersRes : Except String (List Member)
  crimesRes : Except String (List Crime)
  now : String

/-- Observable outcome of one pass: whether the crime-history fetch was
invoked, the lines printed, and whether the pass aborted on a fetch error. -/
structure PassResult where
  fetchedCrimes : Bool
  output : List String
  aborted : Bool
deriving DecidableEq, Repr

/-- `selectedAll` of `runReports`: every roster member keyed by id. -/
def selectAll (members : List Member) : List (Int × Member) :=
  members.foldl (fun a m => setA a m.ID m) []

/-- `selectedNoOC` of `runReports`: members whose `is_in_oc` flag is false. -/
def selectNoOC (members : List Member) : List (Int × Member) :=
  members.foldl (fun a m => if m.IsInOC then a else setA a m.ID m) []

/-- The `selected` map `runReports` bases its empty-selection check on
(for `--both` it is `selectedNoOC`, "used for empty check only"). -/
def selectedOf (mode : Mode) (members : List Member) : List (Int × Member) :=
  match mode with
  | Mode.both => selectNoOC members
  | Mode.all => selectAll members
  | Mode.noc => selectNoOC members

/-- One pass of `runReports` (src/unnamed/part_002, stdout sink): fetch
members, select, short-circuit an empty selection in single mode, fetch
crimes, reduce, render.  Fetch errors abort the pass (`log.Error` + return). -/
def runPass (mode : Mode) (fmtT : Int → String) (i : PassInput) : PassResult :=
  match i.membersRes with
  | Except.error _ => ⟨false, [], true⟩
  | Except.ok members =>
    let selectedAll := selectAll members
    let selectedNoOC := selectNoOC members
    let selected := selectedOf mode members
    if selected = [] ∧ mode ≠ Mode.both then
      ⟨false, ["No matching faction members found."], false⟩
    else
      match i.crimesRes with
      | Except.error _ => ⟨true, [], true⟩
      | Except.ok crimes =>
        let statsAll := buildStats crimes
        match mode with
        | Mode.both =>
          ⟨true,
            ("=== Members not in OC ===" :: generateReportLines i.now fmtT selectedNoOC statsAll)
              ++ ("" :: "=== All Members ===" :: generateReportLines i.now fmtT selectedAll statsAll),
            false⟩
        | _ => ⟨true, generateReportLines i.now fmtT selected statsAll, false⟩

/-- The scheduler of `main`: one immediate pass, then, when a positive
repeat interval is configured, one further full pass per ticker tick
(`ticks` lists the inputs consumed by successive ticks). -/
def schedulerRuns (mode : Mode) (fmtT : Int → String) (interval : Int) (first : PassInput)
    (ticks : List PassInput) : List PassResult :=
  runPass mode fmtT first :: (if 0 < interval then ticks.map (runPass mode fmtT) else [])

/-- Operations attempted against the tabular sink. -/
inductive SinkOp where
  | clearRange (range : String)
  | updateRange (range : String) (rows : List (List String))
deriving DecidableEq, Repr

/-- Emission to one sheet target in `runReports`: `ClearRange` then
`UpdateRange`, each call's outcome given as input; a clear failure is only
logged and the write is attempted regardless.  Returns the attempted
operations and the log lines. -/
def emitTarget (clearRes updateRes : Except String Unit) (range : String)
    (rows : List (List String)) : List SinkOp × List String :=
  let clearLogs : List String := match clearRes with
    | Except.error e => ["clear sheet: " ++ e]
    | Except.ok _ => []
  let writeLogs : List String := match updateRes with
    | Except.error e => ["write sheet: " ++ e]
    | Except.ok _ => ["Wrote report to Google Sheet"]
  ([SinkOp.clearRange range, SinkOp.updateRange range rows], clearLogs ++ writeLogs)

/-- The `--both` sheets branch of `runReports`: the not-in-OC target range
is cleared and written, then the all-members target range, the two targets
handled independently. -/
def emitBoth (c1 u1 c2 u2 : Except String Unit) (rNoc rAll : String)
    (rowsNoc rowsAll : List (List String)) : List SinkOp × List String :=
  let t1 := emitTarget c1 u1 rNoc rowsNoc
  let t2 := emitTarget c2 u2 rAll rowsAll
  (t1.1 ++ t2.1, t1.2 ++ t2.2)

/-- Trivial timestamp renderer for concrete instances. -/
def fmt0 : Int → String := fun _ => ""

/-- Sample last-action descriptor. -/
def la0 : LastActionInfo := ⟨"Online", 0, "now"⟩

/-- Sample members. -/
def memAlice : Member := ⟨1, "Alice", false, la0⟩

def memBobLower : Member := ⟨1, "bob", false, la0⟩

def memBobUpper : Member := ⟨2, "Bob", false, la0⟩

def memInOC : Member := ⟨3, "Carol", true, la0⟩

/-- A crime with one slot for member 1 at difficulty 7, position `Muscle`. -/
def crime0 (cid exec rate : Int) : Crime :=
  ⟨cid, "Blast from the Past", 7, exec, [⟨"Muscle", ⟨1, "ok"⟩, rate⟩]⟩

/-- The key triple `crime0` writes. -/
def key0 : Key := (1, 7, "Muscle")

/-- A crime with no slots, used to populate fetched pages. -/
def dummyCrime : Crime := ⟨0, "x", 1, 1, []⟩

/-- A history source answering pages of sizes 100, 100, 47. -/
def src247 : Nat → List Crime := fun off =>
  if off = 0 then List.replicate 100 dummyCrime
  else if off = 100 then List.replicate 100 dummyCrime
  else if off = 200 then List.replicate 47 dummyCrime
  else []

/-- A history source answering pages of sizes 100, 100, 100, 0. -/
def src300 : Nat → List Crime := fun off =>
  if off ≤ 200 then List.replicate 100 dummyCrime else []

/-! ### Association-list laws -/

theorem lookupA_setA {κ β : Type} [DecidableEq κ] (s : List (κ × β)) (k k' : κ) (v : β) :
    lookupA (setA s k v) k' = if k = k' then some v else lookupA s k' := by
  induction s with
  | nil =>
    by_cases h : k = k' <;> simp [setA, lookupA, h]
  | cons e rest ih =>
    by_cases h : e.1 = k
    · subst h
      by_cases h2 : e.1 = k' <;> simp [setA, lookupA, h2]
    · by_cases h2 : e.1 = k'
      · have hne : ¬ k = k' := fun hk => h (hk ▸ h2)
        have hne2 : ¬ k' = k := fun hk => hne hk.symm
        simp [setA, lookupA, h, h2, hne, hne2]
      · simp [setA, lookupA, h, h2, ih]

theorem lookupA_setA_self {κ β : Type} [DecidableEq κ] (s : List (κ × β)) (k : κ) (v : β) :
    lookupA (setA s k v) k = some v := by
  simp [lookupA_setA]

theorem lookupA_setA_ne {κ β : Type} [DecidableEq κ] (s : List (κ × β)) (k k' : κ) (v : β)
    (h : k ≠ k') : lookupA (setA s k v) k' = lookupA s k' := by
  simp [lookupA_setA, h]

/-! ### Effect of one slot on the index -/

theorem lookupA_applyPos (exec rate : Int) (pos p : String) (m2 : PosMap) :
    lookupA (applyPos exec rate pos m2) p =
      if pos = p then some (step ((lookupA m2 p).getD ⟨0, 0⟩) (exec, rate))
      else lookupA m2 p := by
  unfold applyPos step
  by_cases hp : pos = p
  · subst hp
    cases h : lookupA m2 pos with
    | none => simp [h, lookupA_setA_self]
      <;> by_cases hgt : exec > (0 : Int) <;> simp [hgt, lookupA_setA_self]
    | some st => simp [h]
      <;> by_cases hgt : exec > st.ExecutedAt <;> simp [hgt, h, lookupA_setA_self]
  · cases h : lookupA m2 pos with
    | none => by_cases hgt : exec > (0 : Int) <;>
        simp [h, hgt, hp, lookupA_setA_self, lookupA_setA_ne _ _ _ _ hp]
    | some st => by_cases hgt : exec > st.ExecutedAt <;>
        simp [h, hgt, hp, lookupA_setA_ne _ _ _ _ hp]

theorem lookupA_applyDiff (exec rate : Int) (d : Int) (pos : String) (d' : Int) (m1 : DiffMap) :
    lookupA (applyDiff exec rate d pos m1) d' =
      if d = d' then some (applyPos exec rate pos ((lookupA m1 d).getD [])) else lookupA m1 d' := by
  unfold applyDiff
  by_cases hd : d = d'
  · subst hd
    cases h : lookupA m1 d with
    | none => simp [h, lookupA_setA_self]
    | some m2 => simp [h, lookupA_setA_self]
  · cases h : lookupA m1 d with
    | none => simp [h, lookupA_setA_ne _ _ _ _ hd, hd]
    | some m2 => simp [h, lookupA_setA_ne _ _ _ _ hd, hd]

theorem lookupA_applySlot (c : Crime) (s : MemberStats) (slot : Slot) (uid : Int) :
    lookupA (applySlot c s slot) uid =
      if slot.User.ID = uid then
        some (applyDiff c.ExecutedAt slot.CheckpointPassRate c.Difficulty slot.Position
          ((lookupA s slot.User.ID).getD []))
      else lookupA s uid := by
  unfold applySlot
  by_cases hu : slot.User.ID = uid
  · subst hu
    cases h : lookupA s slot.User.ID with
    | none => simp [h, lookupA_setA_self]
    | some m1 => simp [h, lookupA_setA_self]
  · cases h : lookupA s slot.User.ID with
    | none => simp [h, lookupA_setA_ne _ _ _ _ hu, hu]
    | some m1 => simp [h, lookupA_setA_ne _ _ _ _ hu, hu]

theorem statsGetK_applySlot (c : Crime) (s : MemberStats) (slot : Slot) (k : Key) :
    statsGetK (applySlot c s slot) k =
      if keyOf c slot = k then
        some (step ((statsGetK s k).getD ⟨0, 0⟩) (c.ExecutedAt, slot.CheckpointPassRate))
      else statsGetK s k := by
  obtain ⟨u, d, p⟩ := k
  simp only [statsGetK, statsGet, keyOf, Prod.mk.injEq]
  rw [lookupA_applySlot]
  by_cases hu : slot.User.ID = u
  · subst hu
    simp only [eq_self_iff_true, true_and, if_true]
    by_cases hd : c.Difficulty = d
    · subst hd
      by_cases hp : slot.Position = p
      · subst hp
        simp only [eq_self_iff_true, and_self, if_true, Option.some_bind]
        rw [lookupA_applyDiff]
        simp only [eq_self_iff_true, if_true, Option.some_bind]
        rw [lookupA_applyPos]
        simp only [eq_self_iff_true, if_true]
        cases h1 : lookupA s slot.User.ID with
        | none => simp [lookupA]
        | some m1 =>
          cases h2 : lookupA m1 c.Difficulty with
          | none => simp [h2, lookupA]
          | some m2 => simp [h2]
      · simp only [hp, and_false, if_false, Option.some_bind]
        rw [lookupA_applyDiff]
        simp only [eq_self_iff_true, if_true, Option.some_bind]
        rw [lookupA_applyPos]
        simp only [hp, if_false]
        cases h1 : lookupA s slot.User.ID with
        | none => simp [lookupA]
        | some m1 =>
          cases h2 : lookupA m1 c.Difficulty with
          | none => simp [h2, lookupA]
          | some m2 => simp [h2]
    · simp only [hd, false_and, and_false, if_false, Option.some_bind]
      rw [lookupA_applyDiff]
      simp only [hd, if_false]
      cases h1 : lookupA s slot.User.ID with
      | none => simp [lookupA]
      | some m1 => simp
  · simp only [hu, false_and, if_false]

/-! ### The per-key reduction law of the stats fold -/

theorem step_exec_ge_fst (acc : RateInfo) (p : Int × Int) : p.1 ≤ (step acc p).ExecutedAt := by
  unfold step
  split
  · simp
  · omega

theorem step_exec_ge_acc (acc : RateInfo) (p : Int × Int) :
    acc.ExecutedAt ≤ (step acc p).ExecutedAt := by
  unfold step
  split
  · simp
    omega
  · omega

theorem statsGetK_slotsFold_of_ge (c : Crime) (k : Key) :
    ∀ (slots : List Slot) (s : MemberStats) (st : RateInfo),
      statsGetK s k = some st → c.ExecutedAt ≤ st.ExecutedAt →
      statsGetK (slots.foldl (applySlot c) s) k = some st := by
  intro slots
  induction slots with
  | nil => intro s st h _; simpa using h
  | cons sl rest ih =>
    intro s st h hle
    simp only [List.foldl_cons]
    refine ih _ st ?_ hle
    rw [statsGetK_applySlot]
    by_cases hk : keyOf c sl = k
    · have hnot : ¬ (c.ExecutedAt > st.ExecutedAt) := not_lt.mpr hle
      simp [hk, h, step, hnot]
    · simp [hk, h]

theorem statsGetK_applyCrime (c : Crime) (k : Key) (s : MemberStats) :
    statsGetK (applyCrime s c) k =
      match crimeHead k c with
      | none => statsGetK s k
      | some p => some (step ((statsGetK s k).getD ⟨0, 0⟩) p) := by
  unfold applyCrime crimeHead
  have main : ∀ (slots : List Slot) (s0 : MemberStats),
      statsGetK (slots.foldl (applySlot c) s0) k =
        match slots.find? (fun slot => decide (keyOf c slot = k)) with
        | none => statsGetK s0 k
        | some sl =>
          some (step ((statsGetK s0 k).getD ⟨0, 0⟩) (c.ExecutedAt, sl.CheckpointPassRate)) := by
    intro slots
    induction slots with
    | nil => intro s0; rfl
    | cons sl rest ih =>
      intro s0
      by_cases hk : keyOf c sl = k
      · rw [List.find?_cons_of_pos _ (by simpa using hk)]
        simp only [List.foldl_cons]
        have hnew : statsGetK (applySlot c s0 sl) k =
            some (step ((statsGetK s0 k).getD ⟨0, 0⟩) (c.ExecutedAt, sl.CheckpointPassRate)) := by
          rw [statsGetK_applySlot]
          simp [hk]
        exact statsGetK_slotsFold_of_ge c k rest _ _ hnew (step_exec_ge_fst _ _)
      · rw [List.find?_cons_of_neg _ (by simpa using hk)]
        simp only [List.foldl_cons]
        have hsame : statsGetK (applySlot c s0 sl) k = statsGetK s0 k := by
          rw [statsGetK_applySlot]
          simp [hk]
        rw [ih (applySlot c s0 sl), hsame]
  rw [main c.Slots s]
  cases c.Slots.find? (fun slot => decide (keyOf c slot = k)) with
  | none => rfl
  | some sl => rfl

theorem reduceFrom_some (m : List (Int × Int)) : ∀ (a : RateInfo),
    reduceFrom (some a) m = some (m.foldl step a) := by
  induction m with
  | nil => intro a; rfl
  | cons p rest ih => intro a; simp [reduceFrom, List.foldl_cons, ih]

theorem statsGetK_crimesFold (k : Key) : ∀ (l : List Crime) (s : MemberStats),
    statsGetK (l.foldl applyCrime s) k = reduceFrom (statsGetK s k) (rc k l) := by
  intro l
  induction l with
  | nil => intro s; rfl
  | cons c rest ih =>
    intro s
    simp only [List.foldl_cons]
    rw [ih, statsGetK_applyCrime]
    cases hf : crimeHead k c with
    | none => simp [rc, List.filterMap_cons, hf]
    | some p =>
      simp only [rc, List.filterMap_cons, hf, reduceFrom]

theorem statsGetK_buildStats (l : List Crime) (k : Key) :
    statsGetK (buildStats l) k = reduceFrom none (rc k l) := by
  have h := statsGetK_crimesFold k l ([] : MemberStats)
  simpa [statsGetK, statsGet, lookupA] using h

theorem reduceFrom_none_of_ne (m : List (Int × Int)) (h : m ≠ []) :
    reduceFrom none m = some (m.foldl step ⟨0, 0⟩) := by
  cases m with
  | nil => exact absurd rfl h
  | cons p rest => simp [reduceFrom, reduceFrom_some, List.foldl_cons]

theorem stepFold_exec_mono (m : List (Int × Int)) : ∀ (a : RateInfo),
    a.ExecutedAt ≤ (m.foldl step a).ExecutedAt := by
  induction m with
  | nil => intro a; simp
  | cons p rest ih =>
    intro a
    exact le_trans (step_exec_ge_acc a p) (ih (step a p))

theorem stepFold_exec_ge (m : List (Int × Int)) : ∀ (a : RateInfo) (p : Int × Int),
    p ∈ m → p.1 ≤ (m.foldl step a).ExecutedAt := by
  induction m with
  | nil => intro a p h; simp at h
  | cons q rest ih =>
    intro a p h
    rcases List.mem_cons.mp h with rfl | h2
    · exact le_trans (step_exec_ge_fst a p) (stepFold_exec_mono rest (step a p))
    · exact ih (step a q) p h2

theorem stepFold_cases (m : List (Int × Int)) : ∀ (a : RateInfo),
    m.foldl step a = a ∨ ∃ p ∈ m, m.foldl step a = ⟨p.2, p.1⟩ ∧ a.ExecutedAt < p.1 := by
  induction m with
  | nil => intro a; left; rfl
  | cons q rest ih =>
    intro a
    simp only [List.foldl_cons]
    by_cases hq : q.1 > a.ExecutedAt
    · have hstep : step a q = ⟨q.2, q.1⟩ := by simp [step, hq]
      rw [hstep]
      rcases ih ⟨q.2, q.1⟩ with h | ⟨p, hp, heq, hlt⟩
      · right
        exact ⟨q, List.mem_cons_self q rest, by rw [h], hq⟩
      · right
        refine ⟨p, List.mem_cons_of_mem _ hp, heq, ?_⟩
        have : (⟨q.2, q.1⟩ : RateInfo).ExecutedAt = q.1 := rfl
        omega
    · have hstep : step a q = a := by simp [step, hq]
      rw [hstep]
      rcases ih a with h | ⟨p, hp, heq, hlt⟩
      · left; exact h
      · right; exact ⟨p, List.mem_cons_of_mem _ hp, heq, hlt⟩

theorem pairwise_fst_eq (m : List (Int × Int)) (hpw : m.Pairwise (fun p q => p.1 ≠ q.1)) :
    ∀ p ∈ m, ∀ q ∈ m, p.1 = q.1 → p = q := by
  induction m with
  | nil => intro p hp; simp at hp
  | cons x rest ih =>
    rcases List.pairwise_cons.mp hpw with ⟨hx, hrest⟩
    intro p hp q hq heq
    rcases List.mem_cons.mp hp with rfl | hp2
    · rcases List.mem_cons.mp hq with rfl | hq2
      · rfl
      · exact absurd heq (hx q hq2)
    · rcases List.mem_cons.mp hq with rfl | hq2
      · exact absurd heq.symm (hx p hp2)
      · exact ih hrest p hp2 q hq2 heq

/-! ### Maximum of the contributing timestamps -/

theorem foldlMax_ge_init (l : List Int) : ∀ (a : Int), a ≤ l.foldl max a := by
  induction l with
  | nil => intro a; simp
  | cons b t ih => intro a; exact le_trans (le_max_left a b) (ih (max a b))

theorem foldlMax_ge_mem (l : List Int) : ∀ (a x : Int), x ∈ l → x ≤ l.foldl max a := by
  induction l with
  | nil => intro a x h; simp at h
  | cons b t ih =>
    intro a x h
    rcases List.mem_cons.mp h with rfl | h2
    · exact le_trans (le_max_right a x) (foldlMax_ge_init t (max a x))
    · exact ih (max a b) x h2

theorem foldlMax_cases (l : List Int) : ∀ (a : Int), l.foldl max a = a ∨ l.foldl max a ∈ l := by
  induction l with
  | nil => intro a; left; rfl
  | cons b t ih =>
    intro a
    simp only [List.foldl_cons]
    rcases ih (max a b) with h | h
    · rcases max_cases a b with ⟨hm, _⟩ | ⟨hm, _⟩
      · left; rw [h, hm]
      · right; rw [h, hm]; exact List.mem_cons_self b t
    · right; exact List.mem_cons_of_mem b h

theorem maxInt_mem (l : List Int) (h : l ≠ []) : maxInt l ∈ l := by
  cases l with
  | nil => exact absurd rfl h
  | cons e es =>
    simp only [maxInt]
    rcases foldlMax_cases es e with h2 | h2
    · rw [h2]; exact List.mem_cons_self e es
    · exact List.mem_cons_of_mem e h2

theorem maxInt_ge (l : List Int) (x : Int) (h : x ∈ l) : x ≤ maxInt l := by
  cases l with
  | nil => simp at h
  | cons e es =>
    simp only [maxInt]
    rcases List.mem_cons.mp h with rfl | h2
    · exact foldlMax_ge_init es x
    · exact foldlMax_ge_mem es e x h2

/-! ### The per-key view `rc` -/

theorem crimeHead_fst (k : Key) (c : Crime) (p : Int × Int) (h : crimeHead k c = some p) :
    p.1 = c.ExecutedAt := by
  unfold crimeHead at h
  cases hf : c.Slots.find? (fun slot => decide (keyOf c slot = k)) with
  | none => rw [hf] at h; simp at h
  | some sl =>
    rw [hf] at h
    simp at h
    rw [← h]

theorem crimeHead_isSome (k : Key) (c : Crime) :
    (crimeHead k c).isSome = contributesB k c := by
  unfold crimeHead contributesB
  cases c.Slots.find? (fun slot => decide (keyOf c slot = k)) <;> simp

theorem rc_mem_exists (k : Key) (l : List Crime) (p : Int × Int) (h : p ∈ rc k l) :
    ∃ c ∈ l, ∃ slot ∈ c.Slots, keyOf c slot = k ∧
      p = (c.ExecutedAt, slot.CheckpointPassRate) := by
  rcases List.mem_filterMap.mp h with ⟨c, hc, hch⟩
  unfold crimeHead at hch
  cases hf : c.Slots.find? (fun slot => decide (keyOf c slot = k)) with
  | none => rw [hf] at hch; simp at hch
  | some sl =>
    rw [hf] at hch
    simp at hch
    have hkey : keyOf c sl = k := by
      have hps := List.find?_some hf
      simpa using hps
    exact ⟨c, hc, sl, List.mem_of_find?_eq_some hf, hkey, hch.symm⟩

theorem rc_pairwise_ne (k : Key) : ∀ (l : List Crime),
    l.Pairwise (fun a b => a.ExecutedAt ≠ b.ExecutedAt) →
    (rc k l).Pairwise (fun p q => p.1 ≠ q.1) := by
  intro l
  induction l with
  | nil => intro _; simp [rc]
  | cons c rest ih =>
    intro hpw
    rcases List.pairwise_cons.mp hpw with ⟨hc, hrest⟩
    cases hf : crimeHead k c with
    | none => simpa [rc, List.filterMap_cons, hf] using ih hrest
    | some p =>
      simp only [rc, List.filterMap_cons, hf]
      refine List.Pairwise.cons ?_ (ih hrest)
      intro q hq
      rcases rc_mem_exists k rest q hq with ⟨c2, hc2, _, _, _, hq2⟩
      rw [crimeHead_fst k c p hf, hq2]
      exact hc c2 hc2

theorem find?_eq_head?_filter {α : Type} (p : α → Bool) : ∀ (l : List α),
    l.find? p = (l.filter p).head? := by
  intro l
  induction l with
  | nil => rfl
  | cons a t ih =>
    by_cases h : p a = true
    · rw [List.find?_cons_of_pos _ h, List.filter_cons_of_pos h]
      rfl
    · rw [List.find?_cons_of_neg _ (by simpa using h), List.filter_cons_of_neg (by simpa using h),
        ih]

theorem slotsAt_find? (k : Key) (c : Crime) (sl : Slot) (h : slotsAt k c = [sl]) :
    c.Slots.find? (fun slot => decide (keyOf c slot = k)) = some sl := by
  rw [find?_eq_head?_filter]
  unfold slotsAt at h
  rw [h]
  rfl

theorem crimeHead_of_slotsAt (k : Key) (c : Crime) (sl : Slot) (h : slotsAt k c = [sl]) :
    crimeHead k c = some (c.ExecutedAt, sl.CheckpointPassRate) := by
  unfold crimeHead
  rw [slotsAt_find? k c sl h]
  rfl

theorem rc_eq_filter (k : Key) : ∀ (l : List Crime),
    rc k l = (l.filter (contributesB k)).filterMap (crimeHead k) := by
  intro l
  induction l with
  | nil => rfl
  | cons c rest ih =>
    cases hf : crimeHead k c with
    | none =>
      have hcb : contributesB k c = false := by
        rw [← crimeHead_isSome, hf]
        rfl
      simp [rc, List.filterMap_cons, List.filter_cons, hf, hcb, ← ih]
    | some p =>
      have hcb : contributesB k c = true := by
        rw [← crimeHead_isSome, hf]
        rfl
      simp [rc, List.filterMap_cons, List.filter_cons, hf, hcb, ← ih]

theorem rc_of_two_records (k : Key) (l : List Crime) (c1 c2 : Crime) (s1 s2 : Slot)
    (hfil : l.filter (contributesB k) = [c1, c2])
    (h1 : slotsAt k c1 = [s1]) (h2 : slotsAt k c2 = [s2]) :
    rc k l = [(c1.ExecutedAt, s1.CheckpointPassRate), (c2.ExecutedAt, s2.CheckpointPassRate)] := by
  rw [rc_eq_filter, hfil]
  simp [List.filterMap_cons, crimeHead_of_slotsAt k c1 s1 h1, crimeHead_of_slotsAt k c2 s2 h2]

theorem rc_map_fst (k : Key) : ∀ (l : List Crime),
    (rc k l).map Prod.fst = contribExecs k l := by
  intro l
  induction l with
  | nil => rfl
  | cons c rest ih =>
    cases hf : crimeHead k c with
    | none =>
      have hcb : contributesB k c = false := by
        rw [← crimeHead_isSome, hf]
        rfl
      simpa [rc, List.filterMap_cons, hf, contribExecs, List.filter_cons, hcb] using ih
    | some p =>
      have hcb : contributesB k c = true := by
        rw [← crimeHead_isSome, hf]
        rfl
      have hfst := crimeHead_fst k c p hf
      simp only [rc, List.filterMap_cons, hf, contribExecs, List.filter_cons, hcb,
        List.map_cons, if_true, cond_true]
      rw [hfst]
      refine congrArg (c.ExecutedAt :: ·) ?_
      simpa [rc, contribExecs] using ih

/-! ### Member-level presence in the index -/

theorem lookupA_slotsFold_isSome (c : Crime) (uid : Int) : ∀ (slots : List Slot)
    (s : MemberStats),
    (lookupA (slots.foldl (applySlot c) s) uid).isSome =
      ((lookupA s uid).isSome || slots.any (fun slot => decide (slot.User.ID = uid))) := by
  intro slots
  induction slots with
  | nil => intro s; simp
  | cons sl rest ih =>
    intro s
    simp only [List.foldl_cons, List.any_cons]
    rw [ih]
    have h1 : (lookupA (applySlot c s sl) uid).isSome =
        ((lookupA s uid).isSome || decide (sl.User.ID = uid)) := by
      rw [lookupA_applySlot]
      by_cases h : sl.User.ID = uid <;> simp [h]
    rw [h1]
    cases lookupA s uid <;> cases h2 : (decide (sl.User.ID = uid)) <;> simp

theorem buildStats_member_isSome (l : List Crime) (uid : Int) :
    (lookupA (buildStats l) uid).isSome =
      l.any (fun c => c.Slots.any (fun slot => decide (slot.User.ID = uid))) := by
  have aux : ∀ (l2 : List Crime) (s : MemberStats),
      (lookupA (l2.foldl applyCrime s) uid).isSome =
        ((lookupA s uid).isSome ||
          l2.any (fun c => c.Slots.any (fun slot => decide (slot.User.ID = uid)))) := by
    intro l2
    induction l2 with
    | nil => intro s; simp
    | cons c rest ih =>
      intro s
      simp only [List.foldl_cons, List.any_cons]
      rw [ih]
      show ((lookupA (applyCrime s c) uid).isSome || _) = _
      unfold applyCrime
      rw [lookupA_slotsFold_isSome]
      cases lookupA s uid <;>
        cases h2 : c.Slots.any (fun slot => decide (slot.User.ID = uid)) <;> simp
  have h := aux l ([] : MemberStats)
  simpa [lookupA] using h

theorem perm_any_eq {α : Type} (f : α → Bool) {l1 l2 : List α} (h : List.Perm l1 l2) :
    l1.any f = l2.any f := by
  cases h1 : l1.any f with
  | true =>
    rcases List.any_eq_true.mp h1 with ⟨a, ha, hfa⟩
    exact (List.any_eq_true.mpr ⟨a, h.mem_iff.mp ha, hfa⟩).symm
  | false =>
    cases h2 : l2.any f with
    | false => rfl
    | true =>
      rcases List.any_eq_true.mp h2 with ⟨a, ha, hfa⟩
      have := List.any_eq_true.mpr ⟨a, h.mem_iff.mpr ha, hfa⟩
      rw [h1] at this
      exact this

/-! ### Claim theorems: the statistics reducer -/

/-- C1 (amended): the statistics reducer is order-independent up to the tie
rule.  (i) For any crime list in which exactly two records assign the triple
`k`, with `executedAt` 100 and 200 and differing pass rates, every
permutation of the list reduces to the entry of the `executedAt = 200`
record at `k`.  (ii) When the records have pairwise distinct `executedAt`,
the whole index (every triple entry, and member presence) is identical for
every permutation.  (iii) When exactly two records tie on a *positive*
`executedAt`, the first-seen record's entry is kept; two records tying at
`executedAt ≤ 0` never overwrite the zero sentinel (see the counterexample
below), so the positivity bound is necessary. -/
theorem statsReduce_order_independent :
    (∀ (l l2 : List Crime) (k : Key) (c1 c2 : Crime) (s1 s2 : Slot),
      l.filter (contributesB k) = [c1, c2] →
      slotsAt k c1 = [s1] → slotsAt k c2 = [s2] →
      c1.ExecutedAt = 100 → c2.ExecutedAt = 200 →
      s1.CheckpointPassRate ≠ s2.CheckpointPassRate →
      List.Perm l2 l →
      statsGetK (buildStats l2) k = some ⟨s2.CheckpointPassRate, 200⟩) ∧
    (∀ (l l2 : List Crime),
      l.Pairwise (fun a b => a.ExecutedAt ≠ b.ExecutedAt) → List.Perm l2 l →
      (∀ k : Key, statsGetK (buildStats l2) k = statsGetK (buildStats l) k) ∧
      (∀ uid : Int,
        (lookupA (buildStats l2) uid).isSome = (lookupA (buildStats l) uid).isSome)) ∧
    (∀ (l : List Crime) (k : Key) (c1 c2 : Crime) (s1 s2 : Slot) (e : Int),
      l.filter (contributesB k) = [c1, c2] →
      slotsAt k c1 = [s1] → slotsAt k c2 = [s2] →
      c1.ExecutedAt = e → c2.ExecutedAt = e → 0 < e →
      statsGetK (buildStats l) k = some ⟨s1.CheckpointPassRate, e⟩) := by
  refine ⟨?_, ?_, ?_⟩
  · intro l l2 k c1 c2 s1 s2 hfil hs1 hs2 he1 he2 _ hperm
    have hrc := rc_of_two_records k l c1 c2 s1 s2 hfil hs1 hs2
    rw [he1, he2] at hrc
    have hperm_rc : List.Perm (rc k l2) (rc k l) := hperm.filterMap _
    rw [statsGetK_buildStats]
    have hmem : ((200 : Int), s2.CheckpointPassRate) ∈ rc k l2 := by
      rw [hperm_rc.mem_iff, hrc]
      simp
    have hne2 : rc k l2 ≠ [] := by
      intro h0
      rw [h0] at hmem
      simp at hmem
    rw [reduceFrom_none_of_ne _ hne2]
    have hge := stepFold_exec_ge (rc k l2) ⟨0, 0⟩ _ hmem
    rcases stepFold_cases (rc k l2) ⟨0, 0⟩ with hv | ⟨p, hp, hv, hlt⟩
    · rw [hv] at hge
      simp at hge
    · have hpmem : p ∈ rc k l := hperm_rc.mem_iff.mp hp
      rw [hrc] at hpmem
      rw [hv] at hge
      simp at hge
      simp at hpmem
      rcases hpmem with hp1 | hp2
      · rw [hp1] at hge
        simp at hge
      · rw [hv, hp2]
  · intro l l2 hpw hperm
    constructor
    · intro k
      rw [statsGetK_buildStats, statsGetK_buildStats]
      have hperm_rc : List.Perm (rc k l2) (rc k l) := hperm.filterMap _
      by_cases h0 : rc k l = []
      · have h02 : rc k l2 = [] := by
          rw [h0] at hperm_rc
          exact List.Perm.eq_nil hperm_rc
        rw [h0, h02]
      · have h02 : rc k l2 ≠ [] := by
          intro hh
          rw [hh] at hperm_rc
          exact h0 (List.Perm.nil_eq hperm_rc).symm
        rw [reduceFrom_none_of_ne _ h0, reduceFrom_none_of_ne _ h02]
        have hpw_rc : (rc k l).Pairwise (fun p q => p.1 ≠ q.1) := rc_pairwise_ne k l hpw
        have hexec : ((rc k l2).foldl step ⟨0, 0⟩).ExecutedAt =
            ((rc k l).foldl step ⟨0, 0⟩).ExecutedAt := by
          apply le_antisymm
          · rcases stepFold_cases (rc k l2) ⟨0, 0⟩ with hv | ⟨p, hp, hv, _⟩
            · rw [hv]
              exact stepFold_exec_mono (rc k l) ⟨0, 0⟩
            · rw [hv]
              exact stepFold_exec_ge (rc k l) ⟨0, 0⟩ p (hperm_rc.mem_iff.mp hp)
          · rcases stepFold_cases (rc k l) ⟨0, 0⟩ with hw | ⟨q, hq, hw, _⟩
            · rw [hw]
              exact stepFold_exec_mono (rc k l2) ⟨0, 0⟩
            · rw [hw]
              exact stepFold_exec_ge (rc k l2) ⟨0, 0⟩ q (hperm_rc.mem_iff.mpr hq)
        congr 1
        rcases stepFold_cases (rc k l2) ⟨0, 0⟩ with hv | ⟨p, hp, hv, hltp⟩
        · rcases stepFold_cases (rc k l) ⟨0, 0⟩ with hw | ⟨q, hq, hw, hltq⟩
          · rw [hv, hw]
          · exfalso
            rw [hv, hw] at hexec
            simp at hexec hltq
            omega
        · rcases stepFold_cases (rc k l) ⟨0, 0⟩ with hw | ⟨q, hq, hw, hltq⟩
          · exfalso
            rw [hv, hw] at hexec
            simp at hexec hltp
            omega
          · have hpl : p ∈ rc k l := hperm_rc.mem_iff.mp hp
            have hfst : p.1 = q.1 := by
              rw [hv, hw] at hexec
              simpa using hexec
            have hpq : p = q := pairwise_fst_eq (rc k l) hpw_rc p hpl q hq hfst
            rw [hv, hw, hpq]
    · intro uid
      rw [buildStats_member_isSome, buildStats_member_isSome]
      exact perm_any_eq _ hperm
  · intro l k c1 c2 s1 s2 e hfil hs1 hs2 he1 he2 hepos
    have hrc := rc_of_two_records k l c1 c2 s1 s2 hfil hs1 hs2
    rw [he1, he2] at hrc
    rw [statsGetK_buildStats, hrc, reduceFrom_none_of_ne _ (by simp)]
    have hfold : ([(e, s1.CheckpointPassRate), (e, s2.CheckpointPassRate)].foldl step
        ⟨0, 0⟩) = ⟨s1.CheckpointPassRate, e⟩ := by
      simp [step, hepos]
    rw [hfold]

/-- C1 witness: for the concrete two-record history with `executedAt` 100
and 200, the reducer yields the 200-record's entry on a permuted input. -/
theorem statsReduce_order_independent_witness :
    statsGetK (buildStats [crime0 11 200 60, crime0 10 100 30]) key0 = some ⟨60, 200⟩ :=
  statsReduce_order_independent.1 [crime0 10 100 30, crime0 11 200 60]
    [crime0 11 200 60, crime0 10 100 30] key0 (crime0 10 100 30) (crime0 11 200 60)
    ⟨"Muscle", ⟨1, "ok"⟩, 30⟩ ⟨"Muscle", ⟨1, "ok"⟩, 60⟩
    (by decide) (by decide) (by decide) (by decide) (by decide) (by decide) (by decide)

/-- C1 counterexample: the unconditional tie rule is false.  Two records
tie at the same triple with `executedAt = 0` and pass rates 30 and 60
(satisfying every other hypothesis of the tie clause: exactly these two
records contribute, one slot each), yet the reducer stores the zero
sentinel `⟨0, 0⟩`, not the first-seen record's entry `⟨30, 0⟩`: the entry
is initialised to `RateInfo{}` and `0 > 0` is false, so neither record
ever overwrites it. -/
theorem statsReduce_tie_counterexample :
    [crime0 10 0 30, crime0 11 0 60].filter (contributesB key0) =
      [crime0 10 0 30, crime0 11 0 60] ∧
    slotsAt key0 (crime0 10 0 30) = [⟨"Muscle", ⟨1, "ok"⟩, 30⟩] ∧
    slotsAt key0 (crime0 11 0 60) = [⟨"Muscle", ⟨1, "ok"⟩, 60⟩] ∧
    (crime0 10 0 30).ExecutedAt = 0 ∧ (crime0 11 0 60).ExecutedAt = 0 ∧
    statsGetK (buildStats [crime0 10 0 30, crime0 11 0 60]) key0 = some ⟨0, 0⟩ ∧
    (⟨0, 0⟩ : RateInfo) ≠ ⟨30, 0⟩ := by
  decide

/-- C2 (amended): for every triple present in the index whose maximal
contributing `executedAt` is positive, the stored `executedAt` equals that
maximum, and the stored `passRate` is the value of a slot of a record whose
`executedAt` is exactly that maximum — never averaged, merged, or summed. -/
theorem statsIndex_recency (l : List Crime) (k : Key) (st : RateInfo)
    (h : statsGetK (buildStats l) k = some st)
    (hpos : 0 < maxInt (contribExecs k l)) :
    st.ExecutedAt = maxInt (contribExecs k l) ∧
    ∃ c ∈ l, c.ExecutedAt = st.ExecutedAt ∧
      ∃ slot ∈ c.Slots, keyOf c slot = k ∧ slot.CheckpointPassRate = st.Rate := by
  rw [statsGetK_buildStats] at h
  have hne : rc k l ≠ [] := by
    intro h0
    rw [h0] at h
    simp [reduceFrom] at h
  rw [reduceFrom_none_of_ne _ hne] at h
  have hst : (rc k l).foldl step ⟨0, 0⟩ = st := Option.some.inj h
  have hmap : (rc k l).map Prod.fst = contribExecs k l := rc_map_fst k l
  have hcne : contribExecs k l ≠ [] := by
    rw [← hmap]
    simpa using hne
  have hMmem : maxInt (contribExecs k l) ∈ (rc k l).map Prod.fst := by
    rw [hmap]
    exact maxInt_mem _ hcne
  rcases List.mem_map.mp hMmem with ⟨pM, hpM, hpMfst⟩
  have hge : maxInt (contribExecs k l) ≤ st.ExecutedAt := by
    rw [← hst, ← hpMfst]
    exact stepFold_exec_ge (rc k l) ⟨0, 0⟩ pM hpM
  rcases stepFold_cases (rc k l) ⟨0, 0⟩ with hv | ⟨p, hp, hv, hlt⟩
  · exfalso
    rw [hv] at hst
    rw [← hst] at hge
    simp at hge
    omega
  · rw [hv] at hst
    have hple : p.1 ≤ maxInt (contribExecs k l) := by
      apply maxInt_ge
      rw [← hmap]
      exact List.mem_map_of_mem Prod.fst hp
    have hexec : st.ExecutedAt = p.1 := by rw [← hst]
    have hrate : st.Rate = p.2 := by rw [← hst]
    rcases rc_mem_exists k l p hp with ⟨c, hc, slot, hslot, hkey, hpeq⟩
    refine ⟨by omega, c, hc, ?_, slot, hslot, hkey, ?_⟩
    · rw [hexec, hpeq]
    · rw [hrate, hpeq]

/-- C2 counterexample: a single crime with `executedAt = 0` and pass rate 50
leaves the zero sentinel entry in place: the triple is present, the maximal
contributing `executedAt` is 0, yet the stored pass rate (0) is not the pass
rate of any contributing slot (which is 50). -/
theorem statsIndex_recency_counterexample :
    statsGetK (buildStats [crime0 9 0 50]) key0 = some ⟨0, 0⟩ ∧
    contribExecs key0 [crime0 9 0 50] = [0] ∧
    ¬ ∃ c ∈ [crime0 9 0 50], ∃ slot ∈ c.Slots, keyOf c slot = key0 ∧
        slot.CheckpointPassRate = (0 : Int) := by
  decide

/-- C2 witness: a single positive-timestamp record satisfies the amended
invariant. -/
theorem statsIndex_recency_witness :
    (⟨7, 5⟩ : RateInfo).ExecutedAt = maxInt (contribExecs key0 [crime0 9 5 7]) ∧
    ∃ c ∈ [crime0 9 5 7], c.ExecutedAt = (⟨7, 5⟩ : RateInfo).ExecutedAt ∧
      ∃ slot ∈ c.Slots, keyOf c slot = key0 ∧
        slot.CheckpointPassRate = (⟨7, 5⟩ : RateInfo).Rate :=
  statsIndex_recency [crime0 9 5 7] key0 ⟨7, 5⟩ (by decide) (by decide)

/-! ### Claim theorems: the paginated fetcher -/

theorem fetchAux_pages (source : Nat → List Crime) (k : Nat)
    (hfull : ∀ i ∈ List.range k, (source (pageSize * i)).length = pageSize)
    (hshort : (source (pageSize * k)).length < pageSize) :
    ∀ (fuel j : Nat) (acc : List Crime) (reqs : List Nat), j ≤ k → k - j < fuel →
    fetchAllCrimesAux source fuel (pageSize * j) acc reqs =
      some (acc ++ (List.range' j (k + 1 - j)).flatMap (fun i => source (pageSize * i)),
            reqs ++ (List.range' j (k + 1 - j)).map (fun i => pageSize * i)) := by
  intro fuel
  induction fuel with
  | zero => intro j acc reqs hjk hfuel; omega
  | succ f ih =>
    intro j acc reqs hjk hfuel
    by_cases hj : j = k
    · subst hj
      have hone : j + 1 - j = 1 := by omega
      simp only [fetchAllCrimesAux, if_pos hshort, hone, List.range'_one, List.flatMap_cons,
        List.flatMap_nil, List.append_nil, List.map_cons, List.map_nil]
    · have hjlt : j < k := lt_of_le_of_ne hjk hj
      have hlen : (source (pageSize * j)).length = pageSize := hfull j (List.mem_range.mpr hjlt)
      have hnotshort : ¬ ((source (pageSize * j)).length < pageSize) := by omega
      simp only [fetchAllCrimesAux, if_neg hnotshort]
      have hstep2 : pageSize * j + pageSize = pageSize * (j + 1) := by ring
      rw [hstep2, ih (j + 1) (acc ++ source (pageSize * j)) (reqs ++ [pageSize * j])
        (by omega) (by omega)]
      have hr : k + 1 - j = (k - j) + 1 := by omega
      have hr2 : k + 1 - (j + 1) = k - j := by omega
      rw [hr, hr2, List.range'_succ]
      simp [List.append_assoc]

/-- C3: the crime-history fetcher requests offsets 0, 100, 200, …,
incrementing by the requested page size, accumulates every page, and stops
after the first page shorter than 100.  In particular a source with page
sizes [100, 100, 47] is fetched with exactly 3 requests at offsets
0, 100, 200 yielding 247 records, and one with [100, 100, 100, 0] with 4
requests yielding 300 records; the result does not depend on the fuel bound
above the number of pages. -/
theorem fetchAllCrimes_pagination :
    (∀ (source : Nat → List Crime) (k : Nat),
      (∀ i ∈ List.range k, (source (pageSize * i)).length = pageSize) →
      (source (pageSize * k)).length < pageSize →
      ∀ fuel, k < fuel →
      fetchAllCrimes source fuel =
        some ((List.range (k + 1)).flatMap (fun i => source (pageSize * i)),
              (List.range (k + 1)).map (fun i => pageSize * i))) ∧
    (fetchAllCrimes src247 10).map (fun r => (r.1.length, r.2)) =
      some (247, [0, 100, 200]) ∧
    (fetchAllCrimes src300 10).map (fun r => (r.1.length, r.2)) =
      some (300, [0, 100, 200, 300]) := by
  refine ⟨?_, by decide, by decide⟩
  intro source k hfull hshort fuel hfuel
  have h := fetchAux_pages source k hfull hshort fuel 0 [] [] (Nat.zero_le k) (by omega)
  have h0 : pageSize * 0 = 0 := by ring
  rw [h0] at h
  unfold fetchAllCrimes
  rw [h]
  simp [List.range_eq_range']

/-- C3 witness: the general pagination law applied to the concrete
[100, 100, 47] source. -/
theorem fetchAllCrimes_pagination_witness :
    fetchAllCrimes src247 4 =
      some ((List.range 3).flatMap (fun i => src247 (pageSize * i)),
            (List.range 3).map (fun i => pageSize * i)) :=
  fetchAllCrimes_pagination.1 src247 2 (by decide) (by decide) 4 (by decide)

/-! ### Sorting laws -/

theorem lexLe_total : ∀ (a b : List Nat), lexLe a b = true ∨ lexLe b a = true := by
  intro a
  induction a with
  | nil => intro b; left; rfl
  | cons x xs ih =>
    intro b
    cases b with
    | nil => right; rfl
    | cons y ys =>
      by_cases h1 : x < y
      · left; simp [lexLe, h1]
      · by_cases h2 : x = y
        · subst h2
          rcases ih ys with h | h
          · left; simp [lexLe, h]
          · right; simp [lexLe, h]
        · have h3 : y < x := by omega
          right; simp [lexLe, h3]

theorem lexLe_trans : ∀ (a b c : List Nat),
    lexLe a b = true → lexLe b c = true → lexLe a c = true := by
  intro a
  induction a with
  | nil => intro b c _ _; rfl
  | cons x xs ih =>
    intro b c hab hbc
    cases b with
    | nil => simp [lexLe] at hab
    | cons y ys =>
      cases c with
      | nil => simp [lexLe] at hbc
      | cons z zs =>
        by_cases hxy : x < y
        · by_cases hyz : y < z
          · have hxz : x < z := lt_trans hxy hyz
            simp [lexLe, hxz]
          · by_cases hyz2 : y = z
            · have hxz : x < z := hyz2 ▸ hxy
              simp [lexLe, hxz]
            · simp [lexLe, hyz, hyz2] at hbc
        · by_cases hxy2 : x = y
          · subst hxy2
            by_cases hyz : x < z
            · simp [lexLe, hyz]
            · by_cases hyz2 : x = z
              · subst hyz2
                simp [lexLe] at hab hbc ⊢
                exact ih ys zs hab hbc
              · simp [lexLe, hyz, hyz2] at hbc
          · simp [lexLe, hxy, hxy2] at hab

theorem entryLe_total (a b : Int × String) : entryLe a b = true ∨ entryLe b a = true :=
  lexLe_total _ _

theorem entryLe_trans (a b c : Int × String) :
    entryLe a b = true → entryLe b c = true → entryLe a c = true :=
  lexLe_trans _ _ _

theorem insertBy_perm {α : Type} (le : α → α → Bool) (a : α) : ∀ (l : List α),
    List.Perm (insertBy le a l) (a :: l) := by
  intro l
  induction l with
  | nil => exact List.Perm.refl _
  | cons b bs ih =>
    unfold insertBy
    by_cases h : le a b = true
    · rw [if_pos h]
    · rw [if_neg h]
      exact (ih.cons b).trans (List.Perm.swap a b bs)

theorem sortBy_perm {α : Type} (le : α → α → Bool) : ∀ (l : List α),
    List.Perm (sortBy le l) l := by
  intro l
  induction l with
  | nil => exact List.Perm.refl _
  | cons a as ih =>
    exact (insertBy_perm le a (sortBy le as)).trans (ih.cons a)

theorem insertBy_pairwise {α : Type} (le : α → α → Bool)
    (htot : ∀ a b, le a b = true ∨ le b a = true)
    (htrans : ∀ a b c, le a b = true → le b c = true → le a c = true) (a : α) :
    ∀ (l : List α), l.Pairwise (fun x y => le x y = true) →
      (insertBy le a l).Pairwise (fun x y => le x y = true) := by
  intro l
  induction l with
  | nil => intro _; simp [insertBy]
  | cons b bs ih =>
    intro hpw
    rcases List.pairwise_cons.mp hpw with ⟨hb, hbs⟩
    unfold insertBy
    by_cases h : le a b = true
    · rw [if_pos h]
      refine List.Pairwise.cons ?_ hpw
      intro x hx
      rcases List.mem_cons.mp hx with rfl | hx2
      · exact h
      · exact htrans a b x h (hb x hx2)
    · rw [if_neg h]
      have hba : le b a = true := (htot a b).resolve_left h
      refine List.Pairwise.cons ?_ (ih hbs)
      intro x hx
      have hx3 : x ∈ a :: bs := (insertBy_perm le a bs).mem_iff.mp hx
      rcases List.mem_cons.mp hx3 with rfl | hx2
      · exact hba
      · exact hb x hx2

theorem sortBy_pairwise {α : Type} (le : α → α → Bool)
    (htot : ∀ a b, le a b = true ∨ le b a = true)
    (htrans : ∀ a b c, le a b = true → le b c = true → le a c = true) :
    ∀ (l : List α), (sortBy le l).Pairwise (fun x y => le x y = true) := by
  intro l
  induction l with
  | nil => simp [sortBy]
  | cons a as ih => exact insertBy_pairwise le htot htrans a (sortBy le as) ih

/-! ### Claim theorems: the renderer -/

/-- C4 (amended): member blocks appear ordered by case-insensitive
lexicographic comparison of display names (`nameLe`, the reflexive closure
of the `sort.Slice` comparator), and the rendered entries are a permutation
of the `selected` map's entries; the relative order of members whose names
are equal case-insensitively is not fixed by the code — it follows the
map's iteration order, which Go leaves unspecified, not the roster order. -/
theorem report_sorted_case_insensitive :
    ∀ (sel : List (Int × Member)),
      (sortedEntries sel).Pairwise (fun a b => nameLe a.2 b.2 = true) ∧
      List.Perm (sortedEntries sel) (entriesOf sel) ∧
      ∀ (now : String) (fmtT : Int → String) (stats : MemberStats),
        generateReportLines now fmtT sel stats =
          ("Report generated at: " ++ now) ::
            (sortedEntries sel).flatMap (fun e =>
              memberBlock fmtT ((lookupA sel e.1).getD default) (lookupA stats e.1)) := by
  intro sel
  refine ⟨?_, sortBy_perm _ _, fun _ _ _ => rfl⟩
  have h := sortBy_pairwise entryLe entryLe_total entryLe_trans (entriesOf sel)
  exact h.imp (fun hxy => hxy)

/-- C4 counterexample: two members tied case-insensitively ("bob" id 1,
"Bob" id 2).  The map iteration order [(2, Bob), (1, bob)] is as admissible
as any other for the same `selected` map (second conjunct: it is a
permutation of the roster-insertion order [(1, bob), (2, Bob)]), yet the
renderer emits Bob (2) before bob (1), so the tied members do not retain
their relative roster order. -/
theorem report_tie_order_counterexample :
    generateReportLines "T" fmt0 [(2, memBobUpper), (1, memBobLower)] [] =
      ["Report generated at: T", "",
       "Member: Bob (2) - Last seen: Online (now)",
       "  No historical OC participation recorded.", "",
       "Member: bob (1) - Last seen: Online (now)",
       "  No historical OC participation recorded."] ∧
    List.Perm [(2, memBobUpper), (1, memBobLower)] [(1, memBobLower), (2, memBobUpper)] ∧
    nameLe memBobLower.Name memBobUpper.Name = true ∧
    nameLe memBobUpper.Name memBobLower.Name = true := by
  refine ⟨by decide, List.Perm.swap (1, memBobLower) (2, memBobUpper) [], by decide, by decide⟩

/-- C5 (amended): the renderer emits a blank separator line before every
member block, including the very first: for every non-empty selection the
first line after the header is a blank line, and every member block starts
with a blank line. -/
theorem blank_line_every_member :
    ∀ (now : String) (fmtT : Int → String) (sel : List (Int × Member)) (stats : MemberStats),
      sel ≠ [] →
      (generateReportLines now fmtT sel stats).get? 1 = some "" ∧
      ∀ e ∈ sortedEntries sel,
        (memberBlock fmtT ((lookupA sel e.1).getD default) (lookupA stats e.1)).head? =
          some "" := by
  intro now fmtT sel stats hne
  constructor
  · have hlen : (sortedEntries sel).length = (entriesOf sel).length :=
      (sortBy_perm entryLe (entriesOf sel)).length_eq
    cases hs : sortedEntries sel with
    | nil =>
      exfalso
      rw [hs] at hlen
      simp [entriesOf] at hlen
      exact hne (List.length_eq_zero.mp hlen.symm)
    | cons e rest =>
      unfold generateReportLines
      rw [hs]
      simp [List.flatMap_cons, memberBlock]
  · intro e _
    rfl

/-- C5 witness. -/
theorem blank_line_every_member_witness :
    (generateReportLines "T" fmt0 [(1, memAlice)] []).get? 1 = some "" ∧
    ∀ e ∈ sortedEntries [(1, memAlice)],
      (memberBlock fmt0 ((lookupA [(1, memAlice)] e.1).getD default)
        (lookupA ([] : MemberStats) e.1)).head? = some "" :=
  blank_line_every_member "T" fmt0 [(1, memAlice)] [] (by decide)

/-- C5 counterexample: for the one-member selection the line right after
the header is a blank line, not the member summary line the claim
promises. -/
theorem blank_line_counterexample :
    generateReportLines "T" fmt0 [(1, memAlice)] [] =
      ["Report generated at: T", "",
       "Member: Alice (1) - Last seen: Online (now)",
       "  No historical OC participation recorded."] ∧
    (generateReportLines "T" fmt0 [(1, memAlice)] []).get? 1 = some "" ∧
    "" ≠ memberLine memAlice := by
  refine ⟨by decide, by decide, by decide⟩

theorem length_mk (l : List Char) : (String.mk l).length = l.length := rfl

theorem len_spaces4 : ("    " : String).length = 4 := rfl

theorem len_space : (" " : String).length = 1 := rfl

theorem len_dash : ("-" : String).length = 1 := rfl

theorem len_executedAt : ("% (executed_at " : String).length = 15 := rfl

/-- C6: a StatEntry with stored pass rate exactly 0 renders as the dash
placeholder line; a nonzero rate renders as the whole-number percentage
followed by the stored execution timestamp; and the dash line is never
equal to any percentage-form line (in particular never "0%"). -/
theorem zero_rate_placeholder :
    ∀ (fmtT : Int → String) (p : String) (st : RateInfo),
      (st.Rate = 0 → posLine fmtT p st = "    " ++ padRight p 15 ++ " " ++ "-") ∧
      (st.Rate ≠ 0 → posLine fmtT p st =
        "    " ++ padRight p 15 ++ " " ++ padLeft (toString st.Rate) 3 ++ "% (executed_at "
          ++ fmtT st.ExecutedAt ++ ")") ∧
      (∀ (r t : Int),
        "    " ++ padRight p 15 ++ " " ++ "-" ≠
          "    " ++ padRight p 15 ++ " " ++ padLeft (toString r) 3 ++ "% (executed_at "
            ++ fmtT t ++ ")") := by
  intro fmtT p st
  refine ⟨fun h => by simp [posLine, h], fun h => by simp [posLine, h], ?_⟩
  intro r t heq
  have hlen := congrArg String.length heq
  simp only [String.length_append, padRight, padLeft, length_mk, List.length_replicate,
    len_spaces4, len_space, len_dash, len_executedAt] at hlen
  omega

/-- C6 witness: the two rendering forms at concrete entries. -/
theorem zero_rate_placeholder_witness :
    posLine fmt0 "Muscle" ⟨0, 5⟩ = "    " ++ padRight "Muscle" 15 ++ " " ++ "-" ∧
    posLine fmt0 "Muscle" ⟨50, 5⟩ =
      "    " ++ padRight "Muscle" 15 ++ " " ++ padLeft (toString (50 : Int)) 3
        ++ "% (executed_at " ++ fmt0 5 ++ ")" :=
  ⟨(zero_rate_placeholder fmt0 "Muscle" ⟨0, 5⟩).1 rfl,
   (zero_rate_placeholder fmt0 "Muscle" ⟨50, 5⟩).2.1 (by decide)⟩

/-! ### Claim theorems: filtered versus unfiltered reduction -/

theorem flatMap_congr_mem {α β : Type} (l : List α) (f g : α → List β)
    (h : ∀ a ∈ l, f a = g a) : l.flatMap f = l.flatMap g := by
  induction l with
  | nil => rfl
  | cons a t ih =>
    simp only [List.flatMap_cons]
    rw [h a (List.mem_cons_self a t), ih (fun x hx => h x (List.mem_cons_of_mem a hx))]

theorem lookupA_slotsFoldFiltered (c : Crime) (ids : List Int) (uid : Int) (huid : uid ∈ ids) :
    ∀ (slots : List Slot) (s s' : MemberStats), lookupA s uid = lookupA s' uid →
      lookupA
        (slots.foldl (fun a slot => if slot.User.ID ∈ ids then applySlot c a slot else a) s)
        uid
        = lookupA (slots.foldl (applySlot c) s') uid := by
  intro slots
  induction slots with
  | nil => intro s s' h; exact h
  | cons sl rest ih =>
    intro s s' h
    simp only [List.foldl_cons]
    apply ih
    by_cases hsl : sl.User.ID = uid
    · have hmem : sl.User.ID ∈ ids := by rw [hsl]; exact huid
      rw [if_pos hmem, lookupA_applySlot, lookupA_applySlot, if_pos hsl, if_pos hsl, hsl, h]
    · by_cases hm : sl.User.ID ∈ ids
      · rw [if_pos hm, lookupA_applySlot, lookupA_applySlot, if_neg hsl, if_neg hsl, h]
      · rw [if_neg hm, lookupA_applySlot, if_neg hsl, h]

theorem lookupA_buildStatsFiltered (ids : List Int) (uid : Int) (huid : uid ∈ ids)
    (l : List Crime) :
    lookupA (buildStatsFiltered ids l) uid = lookupA (buildStats l) uid := by
  have aux : ∀ (l2 : List Crime) (s s' : MemberStats), lookupA s uid = lookupA s' uid →
      lookupA
        (l2.foldl (fun s0 c => c.Slots.foldl
          (fun a slot => if slot.User.ID ∈ ids then applySlot c a slot else a) s0) s)
        uid
        = lookupA (l2.foldl applyCrime s') uid := by
    intro l2
    induction l2 with
    | nil => intro s s' h; exact h
    | cons c rest ih =>
      intro s s' h
      simp only [List.foldl_cons]
      exact ih _ _ (lookupA_slotsFoldFiltered c ids uid huid c.Slots s s' h)
  exact aux l [] [] rfl

/-- C10: reducing only the slots whose member id belongs to the selection
(the filter of src/main.go) and rendering the selection yields exactly the
same report lines as reducing every slot unconditionally (src/unnamed/
part_002) and rendering: the membership filter is observably equivalent. -/
theorem filtered_reduction_equiv :
    ∀ (now : String) (fmtT : Int → String) (sel : List (Int × Member)) (l : List Crime),
      generateReportLines now fmtT sel (buildStatsFiltered (sel.map Prod.fst) l) =
      generateReportLines now fmtT sel (buildStats l) := by
  intro now fmtT sel l
  unfold generateReportLines
  refine congrArg _ ?_
  apply flatMap_congr_mem
  intro e he
  have he2 : e ∈ entriesOf sel := (sortBy_perm entryLe (entriesOf sel)).mem_iff.mp he
  rcases List.mem_map.mp he2 with ⟨x, hx, hxe⟩
  have hid : e.1 ∈ sel.map Prod.fst := by
    have h1 : e.1 = x.1 := by rw [← hxe]
    rw [h1]
    exact List.mem_map_of_mem Prod.fst hx
  rw [lookupA_buildStatsFiltered (sel.map Prod.fst) e.1 hid l]

/-! ### Claim theorems: pass control flow, scheduler, and sink -/

theorem selectNoOC_eq_nil (members : List Member) (h : ∀ m ∈ members, m.IsInOC = true) :
    selectNoOC members = [] := by
  have aux : ∀ (ms : List Member) (acc : List (Int × Member)), (∀ m ∈ ms, m.IsInOC = true) →
      ms.foldl (fun a m => if m.IsInOC then a else setA a m.ID m) acc = acc := by
    intro ms
    induction ms with
    | nil => intro acc _; rfl
    | cons m rest ih =>
      intro acc hh
      simp only [List.foldl_cons]
      rw [if_pos (hh m (List.mem_cons_self m rest))]
      exact ih acc (fun x hx => hh x (List.mem_cons_of_mem m hx))
  exact aux members [] h

/-- C7: in a single-mode pass an empty selection makes the pass emit only
the "no matching members" message and return before the crime-history
fetch; in `--both` mode the short-circuit does not apply and the history
fetch is performed even when the not-in-OC selection is empty. -/
theorem empty_selection_short_circuit :
    ∀ (fmtT : Int → String) (i : PassInput) (members : List Member),
      i.membersRes = Except.ok members →
      ((∀ m ∈ members, m.IsInOC = true) →
        runPass Mode.noc fmtT i =
          ⟨false, ["No matching faction members found."], false⟩) ∧
      (members = [] →
        runPass Mode.all fmtT i =
          ⟨false, ["No matching faction members found."], false⟩) ∧
      (runPass Mode.both fmtT i).fetchedCrimes = true := by
  intro fmtT i members hres
  obtain ⟨mres, cres, inow⟩ := i
  simp only at hres
  subst hres
  refine ⟨?_, ?_, ?_⟩
  · intro hall
    have hsel : selectedOf Mode.noc members = [] := by
      simpa [selectedOf] using selectNoOC_eq_nil members hall
    simp [runPass, hsel]
  · intro hnil
    subst hnil
    simp [runPass, selectedOf, selectAll]
  · cases cres <;> simp [runPass]

/-- C7 witness: a roster whose only member is in an OC short-circuits the
default (not-in-OC) pass. -/
theorem empty_selection_short_circuit_witness :
    runPass Mode.noc fmt0 ⟨Except.ok [memInOC], Except.ok [], "T"⟩ =
      ⟨false, ["No matching faction members found."], false⟩ :=
  (empty_selection_short_circuit fmt0 ⟨Except.ok [memInOC], Except.ok [], "T"⟩
    [memInOC] rfl).1 (by decide)

/-- C8: a roster-fetch or crime-history-fetch failure aborts the pass with
no report output, and with a positive repeat interval the scheduler still
runs every subsequent tick as a full pass, unaffected by the failure. -/
theorem pass_failure_isolated :
    ∀ (mode : Mode) (fmtT : Int → String) (interval : Int) (first : PassInput)
      (ticks : List PassInput),
      (∀ e, first.membersRes = Except.error e →
        runPass mode fmtT first = ⟨false, [], true⟩) ∧
      (∀ e members, first.membersRes = Except.ok members →
        first.crimesRes = Except.error e →
        ¬ (selectedOf mode members = [] ∧ mode ≠ Mode.both) →
        runPass mode fmtT first = ⟨true, [], true⟩) ∧
      (0 < interval →
        schedulerRuns mode fmtT interval first ticks =
          runPass mode fmtT first :: ticks.map (runPass mode fmtT)) := by
  intro mode fmtT interval first ticks
  obtain ⟨mres, cres, inow⟩ := first
  refine ⟨?_, ?_, ?_⟩
  · intro e he
    simp only at he
    subst he
    rfl
  · intro e members hok herr hnsc
    simp only at hok herr
    subst hok
    subst herr
    cases mode <;> simp_all [runPass, selectedOf]
  · intro hpos
    simp [schedulerRuns, hpos]

/-- C8 witness: a failed first pass aborts silently and a repeating
scheduler still maps the full pass over the subsequent ticks. -/
theorem pass_failure_isolated_witness :
    runPass Mode.noc fmt0 ⟨Except.error "boom", Except.ok [], "T"⟩ = ⟨false, [], true⟩ ∧
    schedulerRuns Mode.noc fmt0 5 ⟨Except.error "boom", Except.ok [], "T"⟩
        [⟨Except.ok [memInOC], Except.ok [], "T"⟩] =
      runPass Mode.noc fmt0 ⟨Except.error "boom", Except.ok [], "T"⟩ ::
        [⟨Except.ok [memInOC], Except.ok [], "T"⟩].map (runPass Mode.noc fmt0) :=
  ⟨(pass_failure_isolated Mode.noc fmt0 5 ⟨Except.error "boom", Except.ok [], "T"⟩
      [⟨Except.ok [memInOC], Except.ok [], "T"⟩]).1 "boom" rfl,
   (pass_failure_isolated Mode.noc fmt0 5 ⟨Except.error "boom", Except.ok [], "T"⟩
      [⟨Except.ok [memInOC], Except.ok [], "T"⟩]).2.2 (by decide)⟩

/-- C9: against the tabular sink the write is attempted regardless of the
clear outcome (clear failure is only logged), and in `--both` mode both
target ranges are cleared and written independently of any failure on the
other: for every combination of call outcomes the attempted-operation trace
is exactly clear/update on the first range then clear/update on the
second. -/
theorem sink_clear_failure_nonfatal :
    ∀ (c1 u1 c2 u2 : Except String Unit) (rNoc rAll : String)
      (rowsNoc rowsAll : List (List String)) (e : String),
      (emitTarget c1 u1 rNoc rowsNoc).1 =
        [SinkOp.clearRange rNoc, SinkOp.updateRange rNoc rowsNoc] ∧
      (emitBoth c1 u1 c2 u2 rNoc rAll rowsNoc rowsAll).1 =
        [SinkOp.clearRange rNoc, SinkOp.updateRange rNoc rowsNoc,
         SinkOp.clearRange rAll, SinkOp.updateRange rAll rowsAll] ∧
      (emitTarget (Except.error e) (Except.ok ()) rNoc rowsNoc).2 =
        ["clear sheet: " ++ e, "Wrote report to Google Sheet"] := by
  intro c1 u1 c2 u2 rNoc rAll rowsNoc rowsAll e
  exact ⟨rfl, rfl, rfl⟩

end TornOC
